import Mathlib

/-!
# Verification of the `information_encoding` library

Shallow embedding of the five algorithm engines of the repository
(Burrows-Wheeler transform, LZW coding, Huffman coding, Hamming coding,
Bloom filter) as executable Lean functions, together with theorems settling
the specification claims.

Python strings are modelled as `List Char`, `bitarray` values as `List Bool`,
Python `int` as `Int`/`Nat` (Python integers are unbounded, so no wrap-around
modelling is needed), and a Python runtime error (AttributeError, IndexError,
TypeError) as `Option.none` of the modelled function.  A Python `while` loop
whose progress is data-dependent is modelled with an explicit fuel argument;
`none` on fuel exhaustion corresponds to the loop failing to make progress.
-/

set_option autoImplicit false
set_option maxRecDepth 8192

/-- Python slice `l[a:b]` for non-negative bounds (the only form the sources use). -/
def pySlice {α : Type} (l : List α) (a b : Nat) : List α :=
  (l.drop a).take (b - a)

/-! ## Burrows-Wheeler transform (`burrows_wheeler_transform.py`) -/

/-- `BurrowsWheelerTransform.shifted_texts`: `[text[i:] + text[:i] for i in range(len(text))]`. -/
def shiftedTexts (text : List Char) : List (List Char) :=
  (List.range text.length).map (fun i => text.drop i ++ text.take i)

/-- Python `str` comparison on the two texts: code-point lexicographic order. -/
def lexLe : List Char → List Char → Bool
  | [], _ => true
  | _ :: _, [] => false
  | x :: xs, y :: ys =>
    if x.toNat < y.toNat then true
    else if y.toNat < x.toNat then false
    else lexLe xs ys

/-- Insertion step of the model of Python `list.sort()` on strings (stable;
equal keys here are identical rotations, so tie order is immaterial). -/
def insertText (t : List Char) : List (List Char) → List (List Char)
  | [] => [t]
  | u :: us => if lexLe t u then t :: u :: us else u :: insertText t us

/-- Model of Python `list.sort()` on the rotation list (ascending, stable). -/
def sortTexts : List (List Char) → List (List Char)
  | [] => []
  | t :: ts => insertText t (sortTexts ts)

/-- `BurrowsWheelerTransform._calc_origin_index`: first index whose entry equals
`text`, else `-1`; `n` is the running `enumerate` counter. -/
def calcOriginIndexGo (n : Nat) : List (List Char) → List Char → Int
  | [], _ => -1
  | item :: rest, text =>
    if item = text then (n : Int) else calcOriginIndexGo (n + 1) rest text

def calcOriginIndex (shifted : List (List Char)) (text : List Char) : Int :=
  calcOriginIndexGo 0 shifted text

/-- `BurrowsWheelerTransform._last_letter_text`: gathers `item[-1]` of every
rotation.  `item[-1]` is the last character; rotations of a non-empty text are
non-empty, so the Python `IndexError` on an empty item is unreachable (modelled
as contributing nothing). -/
def lastLetterText (shifted : List (List Char)) : List Char :=
  (shifted.map (fun item => item.drop (item.length - 1))).flatten

/-- `BurrowsWheelerTransform.encode`. -/
def bwtEncode (text : List Char) : List Char × Int :=
  let sorted := sortTexts (shiftedTexts text)
  (lastLetterText sorted, calcOriginIndex sorted text)

/-- `BurrowsWheelerTransform._get_index_and_remove_by_letter`: find the first
pair whose letter matches, remove it, return its index; `(-1, unchanged)` when
absent. -/
def getIndexAndRemoveByLetter : List (Char × Nat) → Char → Int × List (Char × Nat)
  | [], _ => (-1, [])
  | p :: rest, c =>
    if p.1 = c then ((p.2 : Int), rest)
    else
      let r := getIndexAndRemoveByLetter rest c
      (r.1, p :: r.2)

/-- The list comprehension building `encoded_letters` in `_get_signs_chain`:
threads the mutable `sorted_chars` list through the per-letter lookups. -/
def encodedLettersGo : List (Char × Nat) → List Char → List (Char × Int)
  | _, [] => []
  | st, c :: cs =>
    let r := getIndexAndRemoveByLetter st c
    (c, r.1) :: encodedLettersGo r.2 cs

/-- Model of Python `sorted(encoded_text)`: characters in code-point order. -/
def insertChar (c : Char) : List Char → List Char
  | [] => [c]
  | d :: ds => if c.toNat ≤ d.toNat then c :: d :: ds else d :: insertChar c ds

def sortChars : List Char → List Char
  | [] => []
  | c :: cs => insertChar c (sortChars cs)

/-- `BurrowsWheelerTransform._get_signs_chain`. -/
def signsChain (encodedText : List Char) : List (Nat × Char × Int) :=
  let sortedChars := (sortChars encodedText).enum.map (fun p => (p.2, p.1))
  let encodedLetters := encodedLettersGo sortedChars encodedText
  encodedLetters.enum.map (fun p => (p.1, p.2.1, p.2.2))

/-- `BurrowsWheelerTransform._get_and_remove_by_index`: find the first triple
whose first component equals the searched index, remove it and return its
letter (as a 0/1-character string) and next index; `('', -1)` and the list
unchanged when absent. -/
def getAndRemoveByIndex : List (Nat × Char × Int) → Int → List Char × Int × List (Nat × Char × Int)
  | [], _ => ([], -1, [])
  | item :: rest, idx =>
    if (item.1 : Int) = idx then ([item.2.1], item.2.2, rest)
    else
      let r := getAndRemoveByIndex rest idx
      (r.1, r.2.1, item :: r.2.2)

/-- The `while signs_chain:` loop of `BurrowsWheelerTransform.decode`, with an
explicit fuel.  Each Python iteration either removes one triple (so
`encoded_text`-many steps suffice on the intended path) or removes nothing and
loops with the same state forever; `none` on exhausted fuel models the latter
non-termination. -/
def decodeLoopF : List (Nat × Char × Int) → Int → Nat → Option (List (List Char))
  | [], _, _ => some []
  | _ :: _, _, 0 => none
  | c :: cs, idx, fuel + 1 =>
    let r := getAndRemoveByIndex (c :: cs) idx
    (decodeLoopF r.2.2 r.2.1 fuel).map (fun ls => r.1 :: ls)

/-- `BurrowsWheelerTransform.decode`: walk the chain collecting letters, then
reverse and join.  Fuel `encoded_text` length is exactly the number of removals
the loop performs when every lookup succeeds. -/
def bwtDecode (encodedText : List Char) (encodedIndex : Int) : Option (List Char) :=
  (decodeLoopF (signsChain encodedText) encodedIndex encodedText.length).map
    (fun ls => ls.reverse.flatten)

/-! ### BWT lemmas -/

/-- When no triple carries the searched index, the lookup returns the
`('', -1)` sentinel and removes nothing. -/
theorem getAndRemoveByIndex_not_found (chain : List (Nat × Char × Int)) (idx : Int)
    (h : ∀ x ∈ chain, (x.1 : Int) ≠ idx) :
    getAndRemoveByIndex chain idx = ([], -1, chain) := by
  induction chain with
  | nil => rfl
  | cons item rest ih =>
    have hne : (item.1 : Int) ≠ idx := h item (List.mem_cons_self _ _)
    simp only [getAndRemoveByIndex, if_neg hne]
    rw [ih (fun x hx => h x (List.mem_cons_of_mem _ hx))]

/-- If the searched index occurs nowhere in the non-empty chain, the decode
loop makes no progress and exhausts any amount of fuel: the Python loop runs
forever. -/
theorem decodeLoopF_stuck (fuel : Nat) (chain : List (Nat × Char × Int)) (idx : Int)
    (hne : chain ≠ []) (h : ∀ x ∈ chain, (x.1 : Int) ≠ idx) :
    decodeLoopF chain idx fuel = none := by
  induction fuel generalizing idx with
  | zero =>
    match chain, hne with
    | _ :: _, _ => rfl
  | succ n ih =>
    match chain, hne with
    | c :: cs, _ =>
      have hstep := getAndRemoveByIndex_not_found (c :: cs) idx h
      simp only [decodeLoopF, hstep]
      rw [ih (-1) (fun x _ => by have := Int.natCast_nonneg x.1; omega)]
      rfl

theorem encodedLettersGo_length (cs : List Char) :
    ∀ st : List (Char × Nat), (encodedLettersGo st cs).length = cs.length := by
  induction cs with
  | nil => intro st; rfl
  | cons c cs ih => intro st; simp only [encodedLettersGo, List.length_cons, ih]

/-- Every triple of the signs chain carries a first component below the
encoded text's length (they are the `enumerate` indices). -/
theorem signsChain_fst_lt (e : List Char) :
    ∀ x ∈ signsChain e, x.1 < e.length := by
  intro x hx
  simp only [signsChain, List.mem_map] at hx
  obtain ⟨p, hp, hpx⟩ := hx
  have h1 : p.1 < (encodedLettersGo ((sortChars e).enum.map fun p => (p.2, p.1)) e).length := by
    have := List.mem_enum_iff_getElem?.mp hp
    have := List.getElem?_eq_some.mp this
    exact this.1
  rw [encodedLettersGo_length] at h1
  rw [← hpx]
  exact h1

theorem signsChain_length (e : List Char) : (signsChain e).length = e.length := by
  simp only [signsChain, List.length_map, List.enum_length, encodedLettersGo_length]

/-- C10: on the empty string (outside the spec's non-empty precondition)
`encode` returns `('', -1)` rather than failing, and `decode('', i)` returns
`''` for every integer index `i`. -/
theorem bwt_empty_encode_decode :
    bwtEncode [] = ([], -1) ∧ ∀ i : Int, bwtDecode [] i = some [] := by
  exact ⟨rfl, fun i => rfl⟩

/-- C1: the BWT round-trip property fails on the periodic string "aa": encode
returns ("aa", 0), but the decode loop, after consuming chain index 0, searches
for index 0 again in vain and loops forever (no fuel suffices).  The removal
based chain walk cannot revisit an index, so every text whose rotation cycle is
shorter than its length makes `decode` hang instead of returning the text. -/
theorem bwt_periodic_roundtrip_bug :
    bwtEncode ['a', 'a'] = (['a', 'a'], 0) ∧
    ∀ fuel : Nat, decodeLoopF (signsChain ['a', 'a']) 0 fuel = none := by
  refine ⟨by decide, ?_⟩
  intro fuel
  have hch : signsChain ['a', 'a'] = [(0, 'a', (0 : Int)), (1, 'a', (1 : Int))] := by decide
  rw [hch]
  cases fuel with
  | zero => rfl
  | succ n =>
    have hstep : getAndRemoveByIndex [(0, 'a', (0 : Int)), (1, 'a', (1 : Int))] 0 =
        (['a'], 0, [(1, 'a', (1 : Int))]) := by decide
    simp only [decodeLoopF, hstep]
    rw [decodeLoopF_stuck n [(1, 'a', (1 : Int))] 0 (by simp) (by decide)]
    rfl

/-- C7 (amended): `decode` never raises an `InvalidInput` error (no such error
exists in the source).  With an index outside `[0, len(encoded))` it returns
`''` when the encoded string is empty, and on a non-empty encoded string the
chain walk finds no matching index, removes nothing, and never terminates. -/
theorem bwt_decode_out_of_range (e : List Char) (i : Int)
    (h : i < 0 ∨ (e.length : Int) ≤ i) :
    (e = [] → bwtDecode e i = some []) ∧
    (e ≠ [] → ∀ fuel : Nat, decodeLoopF (signsChain e) i fuel = none) := by
  constructor
  · intro he; subst he; rfl
  · intro hne fuel
    apply decodeLoopF_stuck
    · intro hnil
      have := signsChain_length e
      rw [hnil] at this
      exact hne (List.length_eq_zero.mp this.symm)
    · intro x hx
      have hlt := signsChain_fst_lt e x hx
      rcases h with h | h
      · have : (0 : Int) ≤ (x.1 : Int) := Int.natCast_nonneg _
        omega
      · have : (x.1 : Int) < (e.length : Int) := by exact_mod_cast hlt
        omega

/-- C7 counterexample: with the empty encoded string every index is outside
`[0, 0)`, yet `decode('', 5)` returns the value `''` — no `InvalidInput`
failure occurs. -/
theorem bwt_decode_out_of_range_counterexample : bwtDecode [] 5 = some [] := rfl

/-- Witness for `bwt_decode_out_of_range` at the concrete out-of-range input
`("ab", 5)` and fuel 42. -/
theorem bwt_decode_out_of_range_witness :
    decodeLoopF (signsChain ['a', 'b']) 5 42 = none :=
  (bwt_decode_out_of_range ['a', 'b'] 5 (by decide)).2 (by decide) 42

/-! ## LZW coding (`lzw_coding.py`) -/

/-- Python's `string.printable` (100 characters: digits, lowercase, uppercase,
punctuation, whitespace), the seed alphabet of both lexicons. -/
def printableChars : List Char :=
  "0123456789abcdefghijklmnopqrstuvwxyzABCDEFGHIJKLMNOPQRSTUVWXYZ!\"#$%&\x27()*+,-./:;<=>?@[\\]^_`\x7b|\x7d~ \t\n\r\x0b\x0c".toList

/-- `LzwCoder._get_start_encoding_lexicon`: `{letter: index}` over
`string.printable`, modelled as an insertion-ordered association list. -/
def startEncodingLexicon : List (List Char × Nat) :=
  printableChars.enum.map (fun p => ([p.2], p.1))

/-- `LzwCoder._get_start_decoding_lexicon`: the inverse seed mapping. -/
def startDecodingLexicon : List (Nat × List Char) :=
  printableChars.enum.map (fun p => (p.1, [p.2]))

/-- `dict.get` on the encoding lexicon (keys are unique, first match). -/
def encLexGet (lexicon : List (List Char × Nat)) (key : List Char) : Option Nat :=
  (lexicon.find? (fun p => p.1 = key)).map (fun p => p.2)

/-- `dict.get` on the decoding lexicon. -/
def decLexGet (lexicon : List (Nat × List Char)) (key : Nat) : Option (List Char) :=
  (lexicon.find? (fun p => p.1 = key)).map (fun p => p.2)

/-- `max(lexicon.values()) + 1` of `_add_to_encoding_lexicon`. -/
def encLexNextValue (lexicon : List (List Char × Nat)) : Nat :=
  (lexicon.map (fun p => p.2)).foldl max 0 + 1

/-- `max(lexicon.keys()) + 1` of `_add_to_decoding_lexicon`. -/
def decLexNextKey (lexicon : List (Nat × List Char)) : Nat :=
  (lexicon.map (fun p => p.1)).foldl max 0 + 1

/-- The `for letter in text` loop of `LzwCoder.encode`: grow `suffix` while
`suffix + letter` is known, otherwise emit the code of `suffix` (a
`lexicon.get`, hence an `Option`), add the new string, restart from `letter`.
The base case is the loop's unconditional trailing `else:` emit. -/
def lzwEncodeGo (lexicon : List (List Char × Nat)) (suffix : List Char) :
    List Char → List (Option Nat)
  | [] => [encLexGet lexicon suffix]
  | letter :: rest =>
    let temp := suffix ++ [letter]
    if (lexicon.any (fun p => p.1 = temp)) then lzwEncodeGo lexicon temp rest
    else
      encLexGet lexicon suffix ::
        lzwEncodeGo (lexicon ++ [(temp, encLexNextValue lexicon)]) [letter] rest

/-- `LzwCoder.encode`.  No operation in the source can raise, so the function
is total; an emitted `none` is Python's `None` (the code appended for a suffix
absent from the lexicon, which happens exactly for empty input). -/
def lzwEncode (text : List Char) : List (Option Nat) :=
  lzwEncodeGo startEncodingLexicon [] text

/-- The `for curr_code in encoded_text[1:]` loop of `LzwCoder.decode`.
`none` models the Python runtime errors: `entry[0]` on the empty string
(`IndexError`, the state of `entry` before the first iteration) and
`lexicon.get(prev_code) + last_letter` with a `None` lookup (`TypeError`). -/
def lzwDecodeGo (lexicon : List (Nat × List Char)) (prevCode : Nat) (entry : List Char)
    (acc : List (List Char)) : List Nat → Option (List Char)
  | [] => some acc.flatten
  | curr :: rest =>
    let entryNew : Option (List Char) :=
      match decLexGet lexicon curr with
      | some v => some v
      | none =>
        match entry with
        | [] => none
        | h :: _ => some (entry ++ [h])
    match entryNew with
    | none => none
    | some e' =>
      match e' with
      | [] => none
      | h :: _ =>
        match decLexGet lexicon prevCode with
        | none => none
        | some pv =>
          lzwDecodeGo (lexicon ++ [(decLexNextKey lexicon, pv ++ [h])]) curr e'
            (acc ++ [e']) rest

/-- `LzwCoder.decode`.  `encoded_text[0]` raises `IndexError` on an empty
list; a first code outside the lexicon appends Python `None` which makes the
final `''.join` (or the first loop iteration) raise, modelled as `none`. -/
def lzwDecode (encodedText : List Nat) : Option (List Char) :=
  match encodedText with
  | [] => none
  | c0 :: rest =>
    match decLexGet startDecodingLexicon c0 with
    | none => none
    | some v0 => lzwDecodeGo startDecodingLexicon c0 [] [v0] rest

/-- C3: the LZW round-trip fails on "aaa", the very input that exercises the
self-referential special case.  `encode("aaa") = [10, 100]` (10 is the seed
code for 'a', 100 the first created code), but `decode` initialises `entry` to
`''`, so the special-case branch at the first loop iteration evaluates
`entry[0]` on the empty string and raises `IndexError` instead of producing
"aaa". -/
theorem lzw_special_case_first_step_bug :
    lzwEncode ['a', 'a', 'a'] = [some 10, some 100] ∧
    lzwDecode [10, 100] = none := by decide

/-- C8 counterexample: `encode('')` does not fail — it returns the one-element
list `[None]` (the unconditional trailing emit looks up the empty suffix,
which is absent from the seed lexicon). -/
theorem lzw_encode_empty_counterexample : lzwEncode [] = [none] := by decide

/-- C8 (amended): `LzwCoder.encode` on the empty string raises no `EmptyInput`
error (no such error exists in the source); it returns the single-element list
`[None]` produced by the trailing emit of the missing empty suffix. -/
theorem lzw_encode_empty_returns_none_code :
    (lzwEncode []).length = 1 ∧ lzwEncode [] = [none] := by decide

/-! ## Huffman coding (`huffman_coding.py`) -/

/-- `HuffmanCoder.Node`: character (leaves), frequency, children.  The only
attributes the class defines are `character`, `frequency`, `left`, `right` —
in particular there is no `freq` attribute. -/
inductive HNode where
  | node (character : Option Char) (frequency : Nat) (left : Option HNode)
      (right : Option HNode)

def HNode.character : HNode → Option Char
  | node c _ _ _ => c

def HNode.frequency : HNode → Nat
  | node _ f _ _ => f

def HNode.left : HNode → Option HNode
  | node _ _ l _ => l

def HNode.right : HNode → Option HNode
  | node _ _ _ r => r

/-- `Node.is_leaf`. -/
def HNode.isLeaf (n : HNode) : Bool :=
  n.right.isNone && n.left.isNone

/-- Model of Python `set(text)` iteration: first-occurrence order (CPython's
set order is unspecified; it only permutes the frequency pairs, which affects
none of the settled claims). -/
def firstOccurrences : List Char → List Char
  | [] => []
  | c :: cs => c :: (firstOccurrences cs).filter (fun d => d ≠ c)

/-- `heapq.heappop`: extract a node of minimal `frequency` (`Node.__lt__`
compares only frequencies, so the tie order among equal frequencies is
unspecified; the model removes the first minimal node). -/
def extractMin : List HNode → Option (HNode × List HNode)
  | [] => none
  | [x] => some (x, [])
  | x :: y :: rest =>
    match extractMin (y :: rest) with
    | none => some (x, y :: rest)
    | some (m, others) =>
      if x.frequency ≤ m.frequency then some (x, y :: rest)
      else some (m, x :: others)

/-- The `while len(pq) != 1` merge loop of `_get_huffman_tree_root`.  Each
iteration pops the two smallest nodes and pushes their merge, shrinking the
queue by one, so `pq.length` steps of fuel always suffice; `none` covers the
unreachable empty-queue pops and fuel exhaustion. -/
def buildLoop : Nat → List HNode → Option HNode
  | _, [] => none
  | _, [x] => some x
  | 0, _ :: _ :: _ => none
  | fuel + 1, pq =>
    match extractMin pq with
    | none => none
    | some (l, pq1) =>
      match extractMin pq1 with
      | none => none
      | some (r, pq2) =>
        buildLoop fuel (pq2 ++ [HNode.node none (l.frequency + r.frequency) l r])

/-- `HuffmanCoder._get_huffman_tree_root`: `None` for empty text, else the
frequency-merged tree root. -/
def getHuffmanTreeRoot (text : List Char) : Option HNode :=
  if text.length = 0 then none
  else
    let freq := (firstOccurrences text).map (fun c => (c, text.count c))
    let pq := freq.map (fun p => HNode.node (some p.1) p.2 none none)
    buildLoop pq.length pq

/-- `HuffmanCoder._fill_huffman_codes`: collect `(character, code)` pairs; a
leaf whose accumulated code is empty gets the degenerate code "1". -/
def fillCodes : HNode → List Bool → List (Char × List Bool)
  | HNode.node ch _ l r, code =>
    let leafPart :=
      if l.isNone && r.isNone then
        match ch with
        | some c => [(c, if code.length > 0 then code else [true])]
        | none => []
      else []
    leafPart ++
      (match l with
       | none => []
       | some ln => fillCodes ln (code ++ [false])) ++
      (match r with
       | none => []
       | some rn => fillCodes rn (code ++ [true]))

/-- `HuffmanCoder.encode`: build the tree and codes, then concatenate the code
of every character.  `huffman_codes.get` misses are impossible for characters
of the encoded text (every one is a leaf), modelled as contributing nothing. -/
def huffEncode (text : List Char) : List Bool :=
  let codes :=
    match getHuffmanTreeRoot text with
    | none => []
    | some r => fillCodes r []
  (text.map (fun ch =>
    match codes.find? (fun p => p.1 = ch) with
    | none => []
    | some p => p.2)).flatten

/-- `HuffmanCoder._decoding_parser`: walk from `node` consuming bits until a
leaf, returning the index of the last consumed bit and the grown output.
`none` models `encoded_b_arr[index]` out of range (`IndexError`) and a leaf
with `character = None` (`decoded_str += None`, a `TypeError`); neither occurs
for codes produced by `encode`. -/
def decodingParserFn : HNode → Int → List Bool → List Char → Option (Int × List Char)
  | HNode.node ch _ l r, index, bits, decoded =>
    if r.isNone && l.isNone then
      match ch with
      | some c => some (index, decoded ++ [c])
      | none => none
    else
      let index' := index + 1
      if h : 0 ≤ index' ∧ index'.toNat < bits.length then
        let b := bits.get ⟨index'.toNat, h.2⟩
        -- the source recurses on `node.left`/`node.right`, an `Option`; its
        -- `None` base case (return the pair unchanged) is unfolded here
        match b, l, r with
        | false, none, _ => some (index', decoded)
        | false, some ln, _ => decodingParserFn ln index' bits decoded
        | true, _, none => some (index', decoded)
        | true, _, some rn => decodingParserFn rn index' bits decoded
      else none

/-- The `while index < len(encoded_b_arr) - 1` loop of `HuffmanCoder.decode`
for a non-leaf root.  Each genuine iteration consumes at least one bit, so
`bits.length + 1` fuel suffices; `none` on fuel exhaustion models a parser
call that makes no progress (impossible for a well-formed tree). -/
def huffDecodeWalk (root : HNode) (bits : List Bool) :
    Nat → Int → List Char → Option (List Char)
  | 0, index, decoded => if index < (bits.length : Int) - 1 then none else some decoded
  | fuel + 1, index, decoded =>
    if index < (bits.length : Int) - 1 then
      match decodingParserFn root index bits decoded with
      | none => none
      | some r => huffDecodeWalk root bits fuel r.1 r.2
    else some decoded

/-- `HuffmanCoder.decode`.  For a `None` root (decode before encode, or encode
of empty text) `self._root.is_leaf()` raises `AttributeError`.  For a leaf
root the source enters `while self._root.freq > 0`, but `Node` defines no
attribute `freq` (only `frequency`), so Python raises `AttributeError`:
modelled as `none`. -/
def huffDecode (root : Option HNode) (bits : List Bool) : Option (List Char) :=
  match root with
  | none => none
  | some r =>
    if r.isLeaf then none
    else huffDecodeWalk r bits (bits.length + 1) (-1) []

/-- C2: the Huffman round-trip fails on the flagged single-distinct-character
input "aaaa".  `encode` produces the degenerate code `1111`, but `decode` on
the retained leaf root reads the non-existent attribute `freq` (the class
defines `frequency`) and raises `AttributeError` instead of returning
"aaaa". -/
theorem huffman_single_char_decode_bug :
    huffEncode ['a', 'a', 'a', 'a'] = [true, true, true, true] ∧
    huffDecode (getHuffmanTreeRoot ['a', 'a', 'a', 'a'])
      (huffEncode ['a', 'a', 'a', 'a']) = none := by decide

/-! ## Bloom filter (`bloom_filter.py`) -/

/-- Model of Python `str(parameter)` for the non-negative hash parameter:
decimal digits.  Fuel-based (`n / 10` shrinks), with `n + 1` always enough. -/
def natStrGo : Nat → Nat → List Char
  | 0, _ => []
  | fuel + 1, n =>
    if n < 10 then [Char.ofNat (48 + n)]
    else natStrGo fuel (n / 10) ++ [Char.ofNat (48 + n % 10)]

def natStr (n : Nat) : List Char := natStrGo (n + 1) n

/-- `BloomFilter._parameterized_hash_func`: DJB2 over `str(parameter) + item`
(`h = (h << 5) + h + ord(c)` from seed 5381; Python integers never wrap),
reduced modulo the filter length. -/
def paramHashFunc (filterLen : Nat) (item : List Char) (parameter : Nat) : Nat :=
  ((natStr parameter ++ item).foldl
    (fun h c => ((h <<< 5) + h) + c.toNat) 5381) % filterLen

/-- `BloomFilter.add_to_filter`: set the probed bit for each of the `k` hash
parameters.  Indices are below `filterLen` (hence in bounds) whenever
`filterLen > 0` and the filter has that length. -/
def addToFilter (filterLen numHash : Nat) (filter : List Bool) (newItem : List Char) :
    List Bool :=
  (List.range numHash).foldl
    (fun f i => f.set (paramHashFunc filterLen newItem i) true) filter

/-- `BloomFilter.check_is_not_in_filter`: `True` (definitely absent) as soon
as one probed bit is 0, else `False`.  An out-of-range probe would raise in
Python; it is unreachable for a filter of length `filterLen > 0`. -/
def checkIsNotInFilter (filterLen numHash : Nat) (filter : List Bool) (item : List Char) :
    Bool :=
  (List.range numHash).any
    (fun i => filter.getD (paramHashFunc filterLen item i) false == false)

/-- The filter as built by `__init__` (`bitarray(m)` zeroed) followed by a
sequence of `add_to_filter` calls. -/
def buildFilter (filterLen numHash : Nat) (items : List (List Char)) : List Bool :=
  items.foldl (fun f it => addToFilter filterLen numHash f it)
    (List.replicate filterLen false)

/-! ### Bloom filter lemmas -/

theorem foldl_set_length (ps : List Nat) (f : List Bool) :
    (ps.foldl (fun f p => f.set p true) f).length = f.length := by
  induction ps generalizing f with
  | nil => rfl
  | cons p ps ih => simp only [List.foldl_cons, ih, List.length_set]

theorem addToFilter_eq_foldl (filterLen numHash : Nat) (f : List Bool) (it : List Char) :
    addToFilter filterLen numHash f it =
      ((List.range numHash).map (paramHashFunc filterLen it)).foldl
        (fun f p => f.set p true) f := by
  rw [addToFilter, List.foldl_map]

theorem addToFilter_length (filterLen numHash : Nat) (f : List Bool) (it : List Char) :
    (addToFilter filterLen numHash f it).length = f.length := by
  rw [addToFilter_eq_foldl, foldl_set_length]

theorem buildFilter_length (filterLen numHash : Nat) (items : List (List Char)) :
    (buildFilter filterLen numHash items).length = filterLen := by
  suffices h : ∀ f : List Bool,
      (items.foldl (fun f it => addToFilter filterLen numHash f it) f).length = f.length by
    rw [buildFilter, h, List.length_replicate]
  induction items with
  | nil => intro f; rfl
  | cons it items ih => intro f; rw [List.foldl_cons, ih, addToFilter_length]

/-- A bit already set stays set through any further `set _ true` writes. -/
theorem foldl_set_persists (ps : List Nat) (f : List Bool) (j : Nat)
    (h : f[j]? = some true) :
    (ps.foldl (fun f p => f.set p true) f)[j]? = some true := by
  induction ps generalizing f with
  | nil => exact h
  | cons p ps ih =>
    rw [List.foldl_cons]
    apply ih
    rcases eq_or_ne p j with rfl | hpj
    · have hlt : p < f.length := by
        by_contra hge
        rw [List.getElem?_eq_none (Nat.le_of_not_lt hge)] at h
        exact Option.noConfusion h
      simp [List.getElem?_set_self, hlt]
    · rw [List.getElem?_set_ne hpj]
      exact h

/-- Folding `set _ true` over a list of positions sets every in-range listed
position. -/
theorem foldl_set_mem (ps : List Nat) (f : List Bool) (p : Nat)
    (hmem : p ∈ ps) (hlt : p < f.length) :
    (ps.foldl (fun f p => f.set p true) f)[p]? = some true := by
  induction ps generalizing f with
  | nil => cases hmem
  | cons q ps ih =>
    rw [List.foldl_cons]
    rcases List.mem_cons.mp hmem with rfl | hmem'
    · apply foldl_set_persists
      simp [List.getElem?_set_self, hlt]
    · exact ih _ hmem' (by rw [List.length_set]; exact hlt)

theorem addToFilter_persists (filterLen numHash : Nat) (f : List Bool) (it : List Char)
    (j : Nat) (h : f[j]? = some true) :
    (addToFilter filterLen numHash f it)[j]? = some true := by
  rw [addToFilter_eq_foldl]; exact foldl_set_persists _ f j h

theorem foldl_add_persists (filterLen numHash : Nat) (items : List (List Char))
    (f : List Bool) (j : Nat) (h : f[j]? = some true) :
    (items.foldl (fun f it => addToFilter filterLen numHash f it) f)[j]? = some true := by
  induction items generalizing f with
  | nil => exact h
  | cons it items ih =>
    rw [List.foldl_cons]
    exact ih _ (addToFilter_persists _ _ _ _ _ h)

/-- A single `add_to_filter` sets all of the item's own probed bits. -/
theorem addToFilter_probes_set (filterLen numHash : Nat) (f : List Bool) (item : List Char)
    (hf : f.length = filterLen) (hm : 0 < filterLen) (i : Nat) (hi : i < numHash) :
    (addToFilter filterLen numHash f item)[paramHashFunc filterLen item i]? = some true := by
  rw [addToFilter_eq_foldl]
  apply foldl_set_mem
  · exact List.mem_map_of_mem _ (List.mem_range.mpr hi)
  · rw [hf]; exact Nat.mod_lt _ hm

/-- After a sequence of adds containing `item`, every one of that item's
probed bits is set. -/
theorem buildFilter_probes_set (filterLen numHash : Nat) (items : List (List Char))
    (item : List Char) (hmem : item ∈ items) (hm : 0 < filterLen) (i : Nat)
    (hi : i < numHash) :
    (buildFilter filterLen numHash items)[paramHashFunc filterLen item i]? = some true := by
  rw [buildFilter]
  suffices h : ∀ f : List Bool, f.length = filterLen → item ∈ items →
      (items.foldl (fun f it => addToFilter filterLen numHash f it)
        f)[paramHashFunc filterLen item i]? = some true by
    exact h _ (List.length_replicate _ _) hmem
  clear hmem
  induction items with
  | nil => intro _ _ hc; cases hc
  | cons it items ih =>
    intro f hf hmem'
    rw [List.foldl_cons]
    rcases List.mem_cons.mp hmem' with rfl | hmem''
    · exact foldl_add_persists _ _ _ _ _ (addToFilter_probes_set _ _ _ _ hf hm i hi)
    · exact ih _ (by rw [addToFilter_length, hf]) hmem''

/-- C6: no false negatives.  For any filter geometry with a positive bit-vector
length (as produced by the constructor for any positive expected element
count), any sequence of `add_to_filter` calls, and any item of that sequence,
the subsequent membership query reports "possibly present":
`check_is_not_in_filter` returns `False`. -/
theorem bloom_no_false_negatives (filterLen numHash : Nat) (hm : 0 < filterLen)
    (items : List (List Char)) (item : List Char) (hmem : item ∈ items) :
    checkIsNotInFilter filterLen numHash (buildFilter filterLen numHash items) item =
      false := by
  rw [checkIsNotInFilter]
  rw [List.any_eq_false]
  intro i hi
  have hbit := buildFilter_probes_set filterLen numHash items item hmem hm i
    (List.mem_range.mp hi)
  rw [List.getD_eq_getElem?_getD, hbit]
  decide

/-- Witness for `bloom_no_false_negatives`: a filter of 11 bits and 2 hash
functions, the single addition of "ab", then the query for "ab". -/
theorem bloom_no_false_negatives_witness :
    checkIsNotInFilter 11 2 (buildFilter 11 2 [['a', 'b']]) ['a', 'b'] = false :=
  bloom_no_false_negatives 11 2 (by decide) [['a', 'b']] ['a', 'b'] (by decide)

/-! ## Hamming coding (`hamming_coding.py`) -/

/-- UTF-8 bytes of one character: model of Python `str.encode('utf-8')`
applied characterwise (the standard UTF-8 layout). -/
def utf8Bytes (c : Char) : List Nat :=
  let n := c.toNat
  if n < 0x80 then [n]
  else if n < 0x800 then
    [0xC0 ||| (n >>> 6), 0x80 ||| (n &&& 0x3F)]
  else if n < 0x10000 then
    [0xE0 ||| (n >>> 12), 0x80 ||| ((n >>> 6) &&& 0x3F), 0x80 ||| (n &&& 0x3F)]
  else
    [0xF0 ||| (n >>> 18), 0x80 ||| ((n >>> 12) &&& 0x3F),
      0x80 ||| ((n >>> 6) &&& 0x3F), 0x80 ||| (n &&& 0x3F)]

/-- `'{:0>8}'.format(format(encoded_char, 'b'))`: the byte as 8 bits, most
significant first. -/
def byteToBits (b : Nat) : List Bool :=
  (List.range 8).map (fun k => b.testBit (7 - k))

/-- `HammingCoder._chunk_to_b_array`: UTF-8 encode the chunk string and
concatenate the 8-bit groups. -/
def chunkToBArray (chunkStr : List Char) : List Bool :=
  ((chunkStr.map utf8Bytes).flatten.map byteToBits).flatten

/-- The `range(0, len(origin_str), self.num_of_char)` slicing loop of
`_from_str_to_b_arrays`.  Each chunk consumes `num_of_char ≥ 1` characters, so
`l.length` fuel suffices; Python raises `ValueError` for a zero step
(`num_of_char = 0`), which the claims exclude. -/
def chunksOfGo (numOfChar : Nat) : Nat → List Char → List (List Char)
  | _, [] => []
  | 0, _ :: _ => []
  | fuel + 1, c :: cs => (c :: cs).take numOfChar :: chunksOfGo numOfChar fuel ((c :: cs).drop numOfChar)

def chunksOf (numOfChar : Nat) (l : List Char) : List (List Char) :=
  chunksOfGo numOfChar l.length l

/-- The `while last_ind <= len(chunk)` loop of `_split_chunk`.  The loop
variable `i` is `j + 1`; at every guard test the previous `last_ind` equals
the current `first_ind` (both start at 0 and `first_ind += 2**i - 1` makes
`first_ind` equal to the `last_ind` just computed), so the source guard is
`first ≤ len(chunk)`.  `first` grows by `2^(j+1) - 1 ≥ 1` per step, so
`chunk.length + 1` fuel always suffices. -/
def splitChunkLoopGo : Nat → List Bool → Nat → Nat → List (List Bool)
  | 0, _, _, _ => []
  | fuel + 1, chunk, first, j =>
    if first ≤ chunk.length then
      pySlice chunk first (first + (2 ^ (j + 1) - 1)) ::
        splitChunkLoopGo fuel chunk (first + (2 ^ (j + 1) - 1)) (j + 1)
    else []

/-- `HammingCoder._split_chunk`: the initial empty part, then the loop parts. -/
def splitChunk (chunk : List Bool) : List (List Bool) :=
  [] :: splitChunkLoopGo (chunk.length + 1) chunk 0 0

/-- `HammingCoder._add_info_bits`: a zero slot before every part. -/
def addInfoBits (chunk : List Bool) : List Bool :=
  ((splitChunk chunk).map (fun part => false :: part)).flatten

/-- The alternating yield/skip phase of `_control_bit`: yield `pos` bits, skip
`pos` bits, until the iterator is exhausted.  Each round consumes `2*pos ≥ 2`
elements of a non-empty remainder, so `rem.length + 1` fuel suffices (the
source generator would never terminate for `position = 0`; callers always
pass `2^i ≥ 1`). -/
def controlBitLoopGo : Nat → List Bool → Nat → List Bool
  | 0, _, _ => []
  | fuel + 1, rem, pos =>
    if rem.isEmpty then []
    else rem.take pos ++ controlBitLoopGo fuel (rem.drop (pos + pos)) pos

/-- `HammingCoder._control_bit`: skip `position - 1` bits, then alternate. -/
def controlBit (l : List Bool) (position : Nat) : List Bool :=
  controlBitLoopGo (l.length + 1) (l.drop (position - 1)) position

/-- The initial `i = -1; while 2**(i+1) < len: i += 1` scan of
`_set_info_bits`, counting the loop iterations (the final `i` is this count
minus one).  The tested exponent starts at 0 and increases, and `2^e ≥ e + 1`,
so `len + 1` fuel suffices. -/
def infoCountGo : Nat → Nat → Nat → Nat
  | 0, _, _ => 0
  | fuel + 1, len, e => if 2 ^ e < len then infoCountGo fuel len (e + 1) + 1 else 0

def infoCount (len : Nat) : Nat := infoCountGo (len + 1) len 0

/-- `HammingCoder._set_info_bits`: for `i` from the scanned maximum down to 0,
set the bit at position `2^i - 1` to the parity of the ones among the bits
controlled by position `2^i` (computed on the current, partially updated
chunk, exactly as the source mutates in place). -/
def setInfoBits (chunk : List Bool) : List Bool :=
  (List.range (infoCount chunk.length)).reverse.foldl
    (fun c i => c.set (2 ^ i - 1) (decide ((controlBit c (2 ^ i)).count true % 2 = 1)))
    chunk

/-- `HammingCoder._encode_chunk`. -/
def encodeChunk (chunkBin : List Bool) : List Bool :=
  setInfoBits (addInfoBits chunkBin)

/-- `HammingCoder.encode`. -/
def hammingEncode (numOfChar : Nat) (originStr : List Char) : List (List Bool) :=
  (chunksOf numOfChar originStr).map (fun chunk => encodeChunk (chunkToBArray chunk))

/-- The `while start < len(encoded_chunk)` loop of `_extract_value_bits`:
slices `[start : start + 2^i - 1]`, then `start = end + 1`.  `start` grows by
`2^i ≥ 1` per step, so `enc.length + 1` fuel suffices. -/
def extractValueLoopGo : Nat → List Bool → Nat → Nat → List Bool
  | 0, _, _, _ => []
  | fuel + 1, enc, start, i =>
    if start < enc.length then
      pySlice enc start (start + (2 ^ i - 1)) ++
        extractValueLoopGo fuel enc (start + 2 ^ i) (i + 1)
    else []

/-- `HammingCoder._extract_value_bits` (`start, i = 2, 1`). -/
def extractValueBits (enc : List Bool) : List Bool :=
  extractValueLoopGo (enc.length + 1) enc 2 1

/-- The `while 2**i < len(encoded_chunk)` loop of `_extract_info_bits`. -/
def extractInfoLoopGo : Nat → List Bool → Nat → List Bool
  | 0, _, _ => []
  | fuel + 1, enc, i =>
    if 2 ^ i < enc.length then
      pySlice enc (2 ^ i - 1) (2 ^ i) ++ extractInfoLoopGo fuel enc (i + 1)
    else []

/-- `HammingCoder._extract_info_bits`. -/
def extractInfoBits (enc : List Bool) : List Bool :=
  extractInfoLoopGo (enc.length + 1) enc 0

/-- `HammingCoder._reverse_by_index`: flip `received[err_ind]`.  Python
indexing accepts a negative index (counted from the end: the sentinel sum of
an empty difference list yields `err_ind = -1`, the last bit); a genuinely
out-of-range index would raise, modelled as the identity (unreachable for the
decoder's inputs). -/
def reverseByIndex (received : List Bool) (errInd : Int) : List Bool :=
  let j : Int := if errInd < 0 then errInd + received.length else errInd
  if h : 0 ≤ j ∧ j.toNat < received.length then
    received.set j.toNat (! received.get ⟨j.toNat, h.2⟩)
  else received

/-- `HammingCoder._restore_chunk`: the positions whose received parity differs
from the freshly computed parity contribute `2^i`; flip the bit at the summed
index minus one. -/
def restoreChunk (received newlyEncoded : List Bool) : List Bool :=
  let receivedInfoBits := extractInfoBits received
  let newInfoBits := extractInfoBits newlyEncoded
  let diffIndexes := ((List.range receivedInfoBits.length).filter
    (fun i => receivedInfoBits.getD i false ≠ newInfoBits.getD i false)).map (fun i => 2 ^ i)
  let errorIndex : Int := (diffIndexes.sum : Int) - 1
  reverseByIndex received errorIndex

/-- `HammingCoder._validate_chunks`: keep chunks that re-encode to themselves,
restore the others. -/
def validateChunks (receivedChunks newEncodedChunks : List (List Bool)) : List (List Bool) :=
  (receivedChunks.zip newEncodedChunks).map
    (fun p => if p.1 = p.2 then p.1 else restoreChunk p.1 p.2)

/-- `HammingCoder._from_bits_to_str`: for each chunk read `num_of_char` 8-bit
groups (missing groups are skipped via the `if char_bin:` truthiness test;
bytes of a chunk beyond `num_of_char` are silently dropped) and apply
`chr(int(bits, 2))` to each group. -/
def fromBitsToStr (numOfChar : Nat) (chunks : List (List Bool)) : List Char :=
  (chunks.map (fun chunk =>
    (List.range numOfChar).filterMap (fun i =>
      let charBin := pySlice chunk (8 * i) (8 * (i + 1))
      if charBin.isEmpty then none
      else some (Char.ofNat (charBin.foldl (fun a b => 2 * a + (if b then 1 else 0)) 0))))).flatten

/-- `HammingCoder.decode`. -/
def hammingDecode (numOfChar : Nat) (encodedChunks : List (List Bool)) : List Char :=
  let extractedChunks := encodedChunks.map extractValueBits
  let newlyEncodedChunks := extractedChunks.map encodeChunk
  let restoredChunks := validateChunks encodedChunks newlyEncodedChunks
  fromBitsToStr numOfChar (restoredChunks.map extractValueBits)

/-- C4: the zero-error Hamming round-trip fails for multi-byte UTF-8 input.
With chunk size 1 and text "é" (UTF-8 bytes C3 A9), `encode` emits one chunk
of 16 data bits, but `decode` rebuilds text with `chr` per 8-bit group and
reads only `num_of_char` groups per chunk: it returns "Ã" (chr(0xC3), the
second byte dropped) instead of "é". -/
theorem hamming_multibyte_roundtrip_bug :
    hammingDecode 1 (hammingEncode 1 ['é']) = ['Ã'] ∧ ('Ã' : Char) ≠ 'é' := by decide

/-- C5: the single-bit-flip claim fails for the same reason.  Flipping exactly
one bit (position 0 of the only encoded chunk) of `encode("é")` with chunk
size 1 is detected and corrected by the parity comparison, yet `decode` still
returns "Ã", not "é": the corrected chunk is reassembled per byte with `chr`
and truncated to `num_of_char` groups. -/
theorem hamming_single_flip_multibyte_bug :
    hammingDecode 1 ((hammingEncode 1 ['é']).map (fun ch => reverseByIndex ch 0)) = ['Ã'] ∧
    ((hammingEncode 1 ['é']).map (fun ch => reverseByIndex ch 0) ≠ hammingEncode 1 ['é']) := by
  decide

/-! ### Hamming lemmas: the parity-slot layout preserves the data bits (C9) -/

theorem two_le_two_pow_succ (j : Nat) : 2 ≤ 2 ^ (j + 1) := by
  have h1 : 1 ≤ 2 ^ j := Nat.one_le_two_pow
  rw [pow_succ]
  omega

theorem set_drop_of_lt {α : Type} (l : List α) (q a : Nat) (v : α) (h : q < a) :
    (l.set q v).drop a = l.drop a := by
  induction l generalizing q a with
  | nil => rfl
  | cons x xs ih =>
    match a, h with
    | a + 1, h =>
      match q with
      | 0 => rfl
      | q + 1 => exact ih q a (Nat.lt_of_succ_lt_succ h)

theorem set_drop_of_ge {α : Type} (l : List α) (q a : Nat) (v : α) (h : a ≤ q) :
    (l.set q v).drop a = (l.drop a).set (q - a) v := by
  induction l generalizing q a with
  | nil => simp
  | cons x xs ih =>
    match a with
    | 0 => simp
    | a + 1 =>
      match q, h with
      | q + 1, h =>
        simp only [List.set_cons_succ, List.drop_succ_cons, Nat.succ_sub_succ]
        exact ih q a (Nat.le_of_succ_le_succ h)

theorem set_take_of_le {α : Type} (l : List α) (q n : Nat) (v : α) (h : n ≤ q) :
    (l.set q v).take n = l.take n := by
  induction l generalizing q n with
  | nil => rfl
  | cons x xs ih =>
    match n with
    | 0 => rfl
    | n + 1 =>
      match q, h with
      | q + 1, h =>
        simp only [List.set_cons_succ, List.take_succ_cons]
        rw [ih q n (Nat.le_of_succ_le_succ h)]

theorem pySlice_set_low {α : Type} (l : List α) (q a b : Nat) (v : α) (h : q < a) :
    pySlice (l.set q v) a b = pySlice l a b := by
  rw [pySlice, pySlice, set_drop_of_lt l q a v h]

theorem pySlice_set_high {α : Type} (l : List α) (q a b : Nat) (v : α)
    (hab : a ≤ b) (hbq : b ≤ q) :
    pySlice (l.set q v) a b = pySlice l a b := by
  rw [pySlice, pySlice, set_drop_of_ge l q a v (le_trans hab hbq),
    set_take_of_le _ (q - a) (b - a) v (Nat.sub_le_sub_right hbq a)]

/-- Setting a bit at a parity-slot position `2^t - 1` does not change the
extracted value bits: the extraction windows `[2^i, 2^(i+1) - 1)` contain no
position of that shape. -/
theorem extractValueLoopGo_set_slot (t : Nat) (v : Bool) (enc : List Bool) :
    ∀ fuel i, extractValueLoopGo fuel (enc.set (2 ^ t - 1) v) (2 ^ i) i =
      extractValueLoopGo fuel enc (2 ^ i) i := by
  intro fuel
  induction fuel with
  | zero => intro i; rfl
  | succ n ih =>
    intro i
    simp only [extractValueLoopGo, List.length_set]
    by_cases hlt : 2 ^ i < enc.length
    · rw [if_pos hlt, if_pos hlt]
      have hslice : pySlice (enc.set (2 ^ t - 1) v) (2 ^ i) (2 ^ i + (2 ^ i - 1)) =
          pySlice enc (2 ^ i) (2 ^ i + (2 ^ i - 1)) := by
        rcases le_or_lt t i with hti | hit
        · apply pySlice_set_low
          have : 2 ^ t ≤ 2 ^ i := Nat.pow_le_pow_right (by omega) hti
          have h1 : 1 ≤ 2 ^ t := Nat.one_le_two_pow
          omega
        · apply pySlice_set_high
          · omega
          · have : 2 ^ (i + 1) ≤ 2 ^ t := Nat.pow_le_pow_right (by omega) hit
            have h2 : 2 ≤ 2 ^ (i + 1) := two_le_two_pow_succ i
            have hsum : 2 ^ i + 2 ^ i = 2 ^ (i + 1) := by rw [pow_succ]; omega
            omega
      rw [hslice]
      have hstart : 2 ^ i + 2 ^ i = 2 ^ (i + 1) := by rw [pow_succ]; omega
      rw [hstart, ih (i + 1)]
    · rw [if_neg hlt, if_neg hlt]

/-- Setting a parity-slot bit never changes the extracted value bits. -/
theorem extractValueBits_set_slot (enc : List Bool) (t : Nat) (v : Bool) :
    extractValueBits (enc.set (2 ^ t - 1) v) = extractValueBits enc := by
  rw [extractValueBits, extractValueBits, List.length_set]
  have h2 : (2 : Nat) = 2 ^ 1 := rfl
  rw [h2]
  exact extractValueLoopGo_set_slot t v enc (enc.length + 1) 1

/-- Folding parity-slot writes (with arbitrarily computed values) over any
index list leaves the extracted value bits unchanged. -/
theorem extractValueBits_foldl_set_slots (idxs : List Nat)
    (g : List Bool → Nat → Bool) :
    ∀ c : List Bool,
      extractValueBits (idxs.foldl (fun c i => c.set (2 ^ i - 1) (g c i)) c) =
        extractValueBits c := by
  induction idxs with
  | nil => intro c; rfl
  | cons i idxs ih =>
    intro c
    rw [List.foldl_cons, ih, extractValueBits_set_slot]

/-- `_set_info_bits` writes only at the parity slots, hence preserves the
extracted value bits. -/
theorem extractValueBits_setInfoBits (chunk : List Bool) :
    extractValueBits (setInfoBits chunk) = extractValueBits chunk := by
  rw [setInfoBits]
  exact extractValueBits_foldl_set_slots _ _ chunk

/-- Proof-side reformulation of the `_split_chunk` loop on the remaining data
(`r = chunk.drop first`): the part at level `j`, then the rest when the part
was complete.  Proved equal to `splitChunkLoopGo` below. -/
def splitR (r : List Bool) (j : Nat) : List (List Bool) :=
  r.take (2 ^ (j + 1) - 1) ::
    (if h : 2 ^ (j + 1) - 1 ≤ r.length then splitR (r.drop (2 ^ (j + 1) - 1)) (j + 1)
     else [])
termination_by r.length
decreasing_by
  have h2 := two_le_two_pow_succ j
  simp only [List.length_drop]
  omega

/-- Proof-side reformulation of the `_extract_value_bits` loop on the
remaining encoded bits (`r = enc.drop start`). -/
def extractR (r : List Bool) (i : Nat) : List Bool :=
  if r = [] then []
  else r.take (2 ^ i - 1) ++ extractR (r.drop (2 ^ i)) (i + 1)
termination_by r.length
decreasing_by
  have h1 : 1 ≤ 2 ^ i := Nat.one_le_two_pow
  have hne : r.length ≠ 0 := by
    intro h0
    exact (by assumption : ¬r = []) (List.length_eq_zero.mp h0)
  simp only [List.length_drop]
  omega

/-- The encoded stream built from the remaining data: a zero slot before each
part of `splitR`. -/
def joinPartsR (r : List Bool) (j : Nat) : List Bool :=
  ((splitR r j).map (fun part => false :: part)).flatten

theorem extractR_nil (i : Nat) : extractR [] i = [] := by
  rw [extractR]
  simp

theorem joinPartsR_eq (r : List Bool) (j : Nat) :
    joinPartsR r j = false ::
      (r.take (2 ^ (j + 1) - 1) ++
        (if 2 ^ (j + 1) - 1 ≤ r.length then joinPartsR (r.drop (2 ^ (j + 1) - 1)) (j + 1)
         else [])) := by
  rw [joinPartsR, splitR]
  by_cases h : 2 ^ (j + 1) - 1 ≤ r.length
  · rw [dif_pos h, if_pos h]
    simp [joinPartsR]
  · rw [dif_neg h, if_neg h]
    simp

/-- Past the end of the chunk the split loop yields nothing, whatever the
fuel. -/
theorem splitChunkLoopGo_past_end (fuel : Nat) (chunk : List Bool) (first j : Nat)
    (h : chunk.length < first) : splitChunkLoopGo fuel chunk first j = [] := by
  cases fuel with
  | zero => rfl
  | succ n => rw [splitChunkLoopGo, if_neg (by omega)]

/-- The fuelled loop of `_split_chunk` equals the remainder reformulation. -/
theorem splitChunkLoopGo_eq (chunk : List Bool) :
    ∀ fuel first j, first ≤ chunk.length → chunk.length + 1 - first ≤ fuel →
      splitChunkLoopGo fuel chunk first j = splitR (chunk.drop first) j := by
  intro fuel
  induction fuel with
  | zero => intro first j h1 h2; omega
  | succ n ih =>
    intro first j h1 h2
    rw [splitChunkLoopGo, if_pos h1, splitR]
    have hk2 := two_le_two_pow_succ j
    have hslice : pySlice chunk first (first + (2 ^ (j + 1) - 1)) =
        (chunk.drop first).take (2 ^ (j + 1) - 1) := by
      rw [pySlice, Nat.add_sub_cancel_left]
    rw [hslice]
    congr 1
    have hdroplen : (chunk.drop first).length = chunk.length - first :=
      List.length_drop _ _
    by_cases hcase : first + (2 ^ (j + 1) - 1) ≤ chunk.length
    · rw [dif_pos (by omega)]
      rw [ih (first + (2 ^ (j + 1) - 1)) (j + 1) hcase (by omega)]
      rw [List.drop_drop]
    · rw [dif_neg (by omega)]
      exact splitChunkLoopGo_past_end n chunk _ (j + 1) (by omega)

/-- The fuelled loop of `_extract_value_bits` equals the remainder
reformulation. -/
theorem extractValueLoopGo_eq (enc : List Bool) :
    ∀ fuel start i, enc.length - start < fuel →
      extractValueLoopGo fuel enc start i = extractR (enc.drop start) i := by
  intro fuel
  induction fuel with
  | zero => intro start i h; omega
  | succ n ih =>
    intro start i h
    rw [extractValueLoopGo]
    have h1 : 1 ≤ 2 ^ i := Nat.one_le_two_pow
    by_cases hlt : start < enc.length
    · rw [if_pos hlt, extractR]
      rw [if_neg (by
        intro hnil
        have := List.drop_eq_nil_iff.mp hnil
        omega)]
      have hslice : pySlice enc start (start + (2 ^ i - 1)) =
          (enc.drop start).take (2 ^ i - 1) := by
        rw [pySlice, Nat.add_sub_cancel_left]
      rw [hslice]
      congr 1
      rw [ih (start + 2 ^ i) (i + 1) (by omega), List.drop_drop]
    · rw [if_neg hlt, extractR]
      rw [if_pos (List.drop_eq_nil_iff.mpr (by omega))]

/-- Core inversion: extracting the value windows from the slotted stream of
`splitR` recovers the data. -/
theorem extractR_joinPartsR (n : Nat) :
    ∀ r : List Bool, ∀ j : Nat, r.length ≤ n →
      extractR ((joinPartsR r j).drop 1) (j + 1) = r := by
  induction n with
  | zero =>
    intro r j hlen
    have hr : r = [] := List.length_eq_zero.mp (Nat.le_zero.mp hlen)
    subst hr
    have hk2 := two_le_two_pow_succ j
    rw [joinPartsR_eq, if_neg (by simp; omega)]
    simp [extractR_nil]
  | succ n ih =>
    intro r j hlen
    have hk2 := two_le_two_pow_succ j
    have hk1 : 1 ≤ 2 ^ (j + 1) - 1 := by omega
    rw [joinPartsR_eq]
    simp only [List.drop_succ_cons, List.drop_zero]
    by_cases hk : 2 ^ (j + 1) - 1 ≤ r.length
    · rw [if_pos hk]
      have htlen : (r.take (2 ^ (j + 1) - 1)).length = 2 ^ (j + 1) - 1 := by
        rw [List.length_take]
        omega
      have hne : r.take (2 ^ (j + 1) - 1) ++ joinPartsR (r.drop (2 ^ (j + 1) - 1)) (j + 1) ≠ [] := by
        rw [joinPartsR_eq]
        simp
      rw [extractR, if_neg hne]
      have htake : (r.take (2 ^ (j + 1) - 1) ++
          joinPartsR (r.drop (2 ^ (j + 1) - 1)) (j + 1)).take (2 ^ (j + 1) - 1) =
          r.take (2 ^ (j + 1) - 1) := by
        rw [List.take_append_eq_append_take, htlen]
        simp
      have hdrop : (r.take (2 ^ (j + 1) - 1) ++
          joinPartsR (r.drop (2 ^ (j + 1) - 1)) (j + 1)).drop (2 ^ (j + 1)) =
          (joinPartsR (r.drop (2 ^ (j + 1) - 1)) (j + 1)).drop 1 := by
        rw [List.drop_append_eq_append_drop, htlen]
        have hnil : (r.take (2 ^ (j + 1) - 1)).drop (2 ^ (j + 1)) = [] :=
          List.drop_eq_nil_iff.mpr (by omega)
        rw [hnil]
        simp only [List.nil_append]
        congr 1
        omega
      rw [htake, hdrop]
      rw [ih (r.drop (2 ^ (j + 1) - 1)) (j + 1) (by
        rw [List.length_drop]
        omega)]
      exact List.take_append_drop _ r
    · rw [if_neg hk]
      rw [List.append_nil]
      have htake_all : r.take (2 ^ (j + 1) - 1) = r :=
        List.take_of_length_le (by omega)
      rw [htake_all]
      rw [extractR]
      by_cases hr : r = []
      · rw [if_pos hr, hr]
      · rw [if_neg hr]
        have htk : r.take (2 ^ (j + 1) - 1) = r := htake_all
        rw [htk]
        have hdr : r.drop (2 ^ (j + 1)) = [] :=
          List.drop_eq_nil_iff.mpr (by omega)
        rw [hdr, extractR_nil, List.append_nil]

/-- `_add_info_bits` is the slotted stream of the remainder reformulation. -/
theorem addInfoBits_eq (d : List Bool) : addInfoBits d = false :: joinPartsR d 0 := by
  rw [addInfoBits, splitChunk]
  rw [splitChunkLoopGo_eq d (d.length + 1) 0 0 (Nat.zero_le _) (by omega)]
  simp [joinPartsR]

/-- Extraction inverts slot insertion. -/
theorem extractValueBits_addInfoBits (d : List Bool) :
    extractValueBits (addInfoBits d) = d := by
  rw [extractValueBits]
  rw [extractValueLoopGo_eq (addInfoBits d) ((addInfoBits d).length + 1) 2 1 (by omega)]
  rw [addInfoBits_eq]
  have hdrop : (false :: joinPartsR d 0).drop 2 = (joinPartsR d 0).drop 1 := rfl
  rw [hdrop]
  exact extractR_joinPartsR d.length d 0 (le_refl _)

/-- C9: for every bit chunk `d`, extracting the value bits of the
Hamming-encoded chunk recovers `d` exactly: `_add_info_bits` inserts the
parity slots at the power-of-two positions `2^i - 1` (0-based) leaving the
data bits in order, `_set_info_bits` writes only at those slots, and
`_extract_value_bits` reads exactly the complementary windows. -/
theorem hamming_extract_value_encode_chunk (d : List Bool) :
    extractValueBits (encodeChunk d) = d := by
  rw [encodeChunk, extractValueBits_setInfoBits]
  exact extractValueBits_addInfoBits d
